import Mathlib

/-! # Verification of the dolt-jlcpcb-lcsc-inventory-job core

Shallow embedding of the decision logic of `src/_dolt_lib.py` and
`src/load_lcsc_inventory.py`.  External command invocations are
represented by the list of commands the code would issue; faults are
represented by `Option`/sum-typed results carrying the raised message. -/

/-- Adapter-level outcome of one operation: the external commands issued
(in order) and the raised fault, if any (`none` means success). -/
structure StepResult where
  commands : List (List String)
  fault : Option String
  deriving DecidableEq

/-- The fault message raised by `import_polars_df_into_dolt_table` for a
table name missing from the catalog (src/_dolt_lib.py lines 148-152). -/
def unknownTableMsg (tableName : String) : String :=
  "Table '" ++ tableName ++ "' does not exist in the database." ++
    " Create a migration to create the table."

/-- The external import command built by `import_polars_df_into_dolt_table`
(src/_dolt_lib.py lines 158-168).  The mode flag is the fixed literal
`"--append-table"` (line 163); `filePath` stands for the serialized
temporary parquet file. -/
def import_command (tableName filePath : String) : List String :=
  ["dolt", "table", "import", "--append-table", "--file-type=parquet",
    tableName, filePath]

/-- `import_polars_df_into_dolt_table` (src/_dolt_lib.py lines 133-171):
looks the table up in the catalog returned by `dolt_list_tables`, raises
`ValueError` for an unknown table, otherwise invokes the external import
command on the serialized dataset file. -/
def import_polars_df_into_dolt_table (catalog : List String)
    (tableName filePath : String) : StepResult :=
  if tableName ∉ catalog then
    { commands := [], fault := some (unknownTableMsg tableName) }
  else
    { commands := [import_command tableName filePath], fault := none }

/-- The import-mode flag carried by an external import command, if any
(the three candidate flags are listed in the source comment at
src/_dolt_lib.py line 162). -/
def modeFlagOf (cmd : List String) : Option String :=
  cmd.find? (fun s =>
    s == "--create-table" || s == "--replace-table" || s == "--append-table")

/-- The `DELETE` statement issued per table by `dolt_truncate_tables`
(src/_dolt_lib.py line 260). -/
def deleteStatement (tableName : String) : String :=
  "DELETE FROM " ++ tableName ++ ";"

/-- `dolt_truncate_tables` (src/_dolt_lib.py lines 242-262).  The public
interface accepts either a list of names or one bare name (wrapped into a
singleton list, lines 247-248).  Returns the `DELETE` statements issued in
order, and the fault, if any: when requested names are missing from the
catalog the fault carries the set of missing names (the source
interpolates exactly that set into its `ValueError` message) and no
statement is issued. -/
def dolt_truncate_tables (catalog : List String)
    (tableNames : List String ⊕ String) : List String × Option (List String) :=
  let names := match tableNames with
    | Sum.inl l => l
    | Sum.inr s => [s]
  if names.all (fun n => catalog.contains n) then
    (names.map deleteStatement, none)
  else
    ([], some ((names.filter (fun n => !catalog.contains n)).dedup))

/-- The whitespace byte set stripped by Python's `bytes.strip()`
(space, tab, newline, carriage return, vertical tab, form feed). -/
def isAsciiWhitespace (b : Nat) : Bool :=
  b == 32 || b == 9 || b == 10 || b == 13 || b == 11 || b == 12

/-- Model of Python's `bytes.strip()`: whitespace removed from both
ends. -/
def stripBytes (bs : List Nat) : List Nat :=
  ((bs.dropWhile isAsciiWhitespace).reverse.dropWhile isAsciiWhitespace).reverse

/-- Byte encoding of an ASCII string literal. -/
def asciiBytes (s : String) : List Nat := s.toList.map Char.toNat

/-- `dolt_check_status_is_repo_dirty` (src/_dolt_lib.py lines 174-185):
given the captured standard output of `dolt status`, the repository is
dirty unless the stripped output ends with the literal
`"working tree clean"`. -/
def dolt_check_status_is_repo_dirty (statusStdout : List Nat) : Bool :=
  !((asciiBytes "working tree clean").isSuffixOf (stripBytes statusStdout))

/-- The two identity-configuration commands issued first by
`dolt_commit_and_push` (src/_dolt_lib.py lines 194-202). -/
def configCommands (username email : String) : List (List String) :=
  [["dolt", "config", "--add", "user.name", username],
   ["dolt", "config", "--add", "user.email", email]]

/-- Working-copy state as reported by `dolt status`.  A successful
`dolt commit` leaves the working tree clean, which is the external tool
semantics the publisher's idempotence relies on. -/
structure RepoState where
  dirty : Bool
  deriving DecidableEq

/-- `dolt_commit_and_push` (src/_dolt_lib.py lines 188-216): configures
the author identity unconditionally, then checks dirtiness and returns
immediately when clean; otherwise stages, commits and pushes.  Returns
the post-state and the commands issued, in order. -/
def dolt_commit_and_push (s : RepoState) (username email message : String) :
    RepoState × List (List String) :=
  if !s.dirty then
    (s, configCommands username email)
  else
    (⟨false⟩,
      configCommands username email ++
        [["dolt", "add", "."],
         ["dolt", "commit", "-m", message],
         ["dolt", "push"]])

/-- Number of `dolt commit` invocations in a command trace. -/
def countCommits (trace : List (List String)) : Nat :=
  trace.countP (fun c => c.take 2 == ["dolt", "commit"])

mutual
/-- A filesystem entry under the transient `.dolt` metadata folder that
`dolt_clone_repository` cleans up (src/_dolt_lib.py lines 28-38). -/
inductive FsTree where
  | file (name : String)
  | dir (name : String) (children : FsForest)
/-- A list of sibling filesystem entries. -/
inductive FsForest where
  | nil
  | cons (head : FsTree) (tail : FsForest)
end

mutual
/-- The names of the files somewhere under an entry: the recursive
`rglob("*")` walk filtered by `not f.is_dir()` (src/_dolt_lib.py
line 31). -/
def filesUnderTree : FsTree → List String
  | .file n => [n]
  | .dir _ cs => filesUnderForest cs
/-- The file names under a forest of sibling entries. -/
def filesUnderForest : FsForest → List String
  | .nil => []
  | .cons e rest => filesUnderTree e ++ filesUnderForest rest
end

mutual
/-- Whether an entry consists of directories only (no file anywhere). -/
def allDirsTree : FsTree → Bool
  | .file _ => false
  | .dir _ cs => allDirsForest cs
/-- Whether a forest contains no file anywhere. -/
def allDirsForest : FsForest → Bool
  | .nil => true
  | .cons e rest => allDirsTree e && allDirsForest rest
end

/-- Outcome of the transient-metadata cleanup step of
`dolt_clone_repository`. -/
inductive CleanupOutcome where
  | skipped
  | removed
  | fatal (files : List String)
  deriving DecidableEq

/-- The `.dolt` cleanup step of `dolt_clone_repository`
(src/_dolt_lib.py lines 28-38): `none` models an absent directory (the
`is_dir()` guard fails, nothing happens); when the directory is present
its files are collected recursively and any file makes the step raise
`RuntimeError` before `shutil.rmtree` is reached, otherwise the
directory is removed. -/
def dolt_clone_cleanup (tempDoltFolder : Option FsForest) : CleanupOutcome :=
  match tempDoltFolder with
  | none => .skipped
  | some cs =>
    if (filesUnderForest cs).length > 0 then .fatal (filesUnderForest cs)
    else .removed

/-- The leading progress line of the dolt sql defect the source strips
(src/_dolt_lib.py line 106). -/
def progressHeader : List Char := "Processed 0.0% of the file\n".toList

/-- The trailing progress line (src/_dolt_lib.py line 109). -/
def progressFooter : List Char := "Processed 100.0% of the file\n".toList

/-- The token the source right-splits on (src/_dolt_lib.py line 110). -/
def processedToken : List Char := "Processed".toList

/-- Python `b.split(sep, 1)[1]` with `sep` the newline byte: everything
after the first newline.  The source only takes this branch when the
header literal, which ends in a newline, is a prefix of `bs`, so a
newline is present. -/
def dropThroughFirstNewline (bs : List Char) : List Char :=
  (bs.dropWhile (fun c => c != '\n')).drop 1

/-- Downward search for the start index of the last occurrence of `sep`
in `xs`, looking at indices below the fuel argument. -/
def findLastOccAux (sep xs : List Char) : Nat → Option Nat
  | 0 => none
  | n + 1 =>
    if sep.isPrefixOf (xs.drop n) then some n else findLastOccAux sep xs n

/-- Python `b.rsplit(sep, 1)[0]`: everything before the last occurrence
of `sep`, or all of `b` when `sep` does not occur. -/
def rsplitBefore (sep xs : List Char) : List Char :=
  match findLastOccAux sep xs (xs.length + 1) with
  | some i => xs.take i
  | none => xs

/-- The progress-text stripping step of `dolt_sql_query_to_polars_df`
(src/_dolt_lib.py lines 102-113), applied to the captured query standard
output before parquet parsing: strip the first line when the header
literal is a prefix, then cut at the last `"Processed"` when the footer
literal is a suffix. -/
def dolt_sql_strip_progress (bs : List Char) : List Char :=
  let b1 :=
    if progressHeader.isPrefixOf bs then dropThroughFirstNewline bs else bs
  if progressFooter.isSuffixOf b1 then rsplitBefore processedToken b1 else b1

/-- A dataframe cell: `none` models a polars null. -/
abbrev Cell := Option Int

/-- A dataframe row; column 0 is the `lcsc` key column, which the source
asserts is the leading column (src/load_lcsc_inventory.py lines
132-137). -/
abbrev Row := List Cell

/-- Per-column comparison realising the polars sort with
`descending=True, nulls_last=True`: `lt` means "sorts strictly earlier".
Larger values sort first; nulls sort last. -/
def cellCmp : Cell → Cell → Ordering
  | none, none => Ordering.eq
  | none, some _ => Ordering.gt
  | some _, none => Ordering.lt
  | some x, some y =>
    if y < x then Ordering.lt
    else if x < y then Ordering.gt
    else Ordering.eq

/-- Lexicographic comparison of rows over all columns (the source sorts
by `df.columns`, src/load_lcsc_inventory.py line 138). -/
def rowCmp : Row → Row → Ordering
  | [], [] => Ordering.eq
  | [], _ :: _ => Ordering.lt
  | _ :: _, [] => Ordering.gt
  | a :: as, b :: bs =>
    match cellCmp a b with
    | Ordering.eq => rowCmp as bs
    | o => o

/-- "Sorts no later than": the Boolean total preorder of the descending
sort. -/
def rowLe (a b : Row) : Bool :=
  match rowCmp a b with
  | Ordering.gt => false
  | _ => true

/-- The row order as a relation, for `List.insertionSort`. -/
def RowLe (a b : Row) : Prop := rowLe a b = true

instance : DecidableRel RowLe := fun a b =>
  inferInstanceAs (Decidable (rowLe a b = true))

/-- The dedup key: the value of the leading (`lcsc`) column. -/
def keyOf (r : Row) : Cell := r.headD none

/-- `unique("lcsc", keep="first", maintain_order=True)`: keep each row
whose key has not been seen earlier in the list. -/
def uniqueFirstAux (seen : List Cell) : List Row → List Row
  | [] => []
  | r :: rs =>
    if keyOf r ∈ seen then uniqueFirstAux seen rs
    else r :: uniqueFirstAux (keyOf r :: seen) rs

/-- The dedup step of `load_basic_csv_into_dolt`
(src/load_lcsc_inventory.py lines 138-142): sort all rows by all columns
descending with nulls last, then keep the first surviving row per
distinct key.  Rows tied under `rowCmp` are equal on every column, so
every sorted permutation gives the same result; the model sorts with
`List.insertionSort`. -/
def dedup_rows (rows : List Row) : List Row :=
  uniqueFirstAux [] (List.insertionSort RowLe rows)

/-- Maximum of two cells under the descending-nulls-last value order. -/
def cellDescMax (a b : Cell) : Cell :=
  match cellCmp a b with
  | Ordering.gt => b
  | _ => a

/-- The per-column maximum among the rows whose key is `k` — the
per-column reading of the dedup claim under test. -/
def colMaxForKey (rows : List Row) (k : Cell) (j : Nat) : Cell :=
  ((rows.filter (fun r => keyOf r == k)).map
    (fun r => r.getD j none)).foldl cellDescMax none

/-- The dedup claim of the specification, as stated: the output has one
row per distinct key, and every non-key cell of an output row equals the
per-column maximum among the rows carrying that key. -/
def dedupPerColumnMaxClaim (rows : List Row) : Prop :=
  ((dedup_rows rows).map keyOf).Nodup ∧
    (∀ k ∈ rows.map keyOf, k ∈ (dedup_rows rows).map keyOf) ∧
    ∀ r ∈ dedup_rows rows, ∀ j < r.length, j ≠ 0 →
      r.getD j none = colMaxForKey rows (keyOf r) j

instance (rows : List Row) : Decidable (dedupPerColumnMaxClaim rows) := by
  unfold dedupPerColumnMaxClaim
  infer_instance

/-- A concrete duplicate-key input: two rows with key `some 1` whose
later columns disagree in opposite directions. -/
def cexRows : List Row :=
  [[some 1, some 5, some 1], [some 1, some 3, some 9]]

/-- Result of the dedup-and-threshold segment. -/
inductive LoadResult where
  | ok (rows : List Row)
  | fault (msg : String)
  deriving DecidableEq

/-- Whether a load result is the data-quality fault. -/
def LoadResult.isFault : LoadResult → Bool
  | .ok _ => false
  | .fault _ => true

/-- The dedup-and-threshold segment of `load_basic_csv_into_dolt`
(src/load_lcsc_inventory.py lines 127-150): deduplicate, then raise
`ValueError` when the removed-row count exceeds 100. -/
def load_basic_csv_dedup (rows : List Row) : LoadResult :=
  let deduped := dedup_rows rows
  let rowsRemoved := rows.length - deduped.length
  if rowsRemoved > 100 then
    LoadResult.fault ("Removed too many rows: " ++ toString rowsRemoved ++
      " > 100")
  else LoadResult.ok deduped

theorem modeFlagOf_import_command (t p : String) :
    modeFlagOf (import_command t p) = some "--append-table" := rfl

theorem import_fault_none_commands (catalog : List String) (t p : String)
    (h : (import_polars_df_into_dolt_table catalog t p).fault = none) :
    (import_polars_df_into_dolt_table catalog t p).commands.map modeFlagOf =
      [some "--append-table"] := by
  by_cases hm : t ∈ catalog
  · simp [import_polars_df_into_dolt_table, hm, modeFlagOf_import_command]
  · simp [import_polars_df_into_dolt_table, hm] at h

/-- C1 counterexample: the import mode is not chosen per call site.  No
two successful import invocations ever pass different mode flags to the
external import command; the flag is one fixed literal, so the claim that
the orchestrator chooses Replace-contents or Append per dataset is false. -/
theorem import_mode_not_per_call_site :
    ¬ ∃ (cat1 : List String) (t1 p1 : String) (cat2 : List String)
        (t2 p2 : String),
        (import_polars_df_into_dolt_table cat1 t1 p1).fault = none ∧
        (import_polars_df_into_dolt_table cat2 t2 p2).fault = none ∧
        (import_polars_df_into_dolt_table cat1 t1 p1).commands.map modeFlagOf ≠
          (import_polars_df_into_dolt_table cat2 t2 p2).commands.map
            modeFlagOf := by
  rintro ⟨cat1, t1, p1, cat2, t2, p2, h1, h2, hne⟩
  exact hne ((import_fault_none_commands cat1 t1 p1 h1).trans
    (import_fault_none_commands cat2 t2 p2 h2).symm)

/-- C1 (amended): for every import call whose table exists in the catalog,
exactly one external import command is invoked and the mode flag it
carries is always Append (`--append-table`), fixed for every call site;
replace-contents semantics come from the orchestrator truncating first,
not from the import mode. -/
theorem import_mode_always_append (catalog : List String)
    (tableName filePath : String) (h : tableName ∈ catalog) :
    (import_polars_df_into_dolt_table catalog tableName filePath).commands =
        [import_command tableName filePath] ∧
      modeFlagOf (import_command tableName filePath) =
        some "--append-table" := by
  refine ⟨?_, modeFlagOf_import_command tableName filePath⟩
  simp [import_polars_df_into_dolt_table, h]

/-- C1 amended witness: a concrete in-catalog import call. -/
theorem import_mode_always_append_witness :
    (import_polars_df_into_dolt_table ["manufacturers", "categories"]
        "manufacturers" "/tmp/manufacturers.pq").commands =
        [import_command "manufacturers" "/tmp/manufacturers.pq"] ∧
      modeFlagOf (import_command "manufacturers" "/tmp/manufacturers.pq") =
        some "--append-table" :=
  import_mode_always_append ["manufacturers", "categories"] "manufacturers"
    "/tmp/manufacturers.pq" (by decide)

/-- C3: importing into a table name absent from the catalog raises the
unknown-table fault, whose message directs the operator to create a
schema migration, and invokes no external import command. -/
theorem import_unknown_table_raises (catalog : List String)
    (tableName filePath : String) (h : tableName ∉ catalog) :
    import_polars_df_into_dolt_table catalog tableName filePath =
      { commands := [], fault := some (unknownTableMsg tableName) } := by
  simp [import_polars_df_into_dolt_table, h]

/-- C3 witness: the concrete scenario — catalog
`{"manufacturers", "categories"}`, request `"components"` — raises
without importing. -/
theorem import_unknown_table_raises_witness :
    import_polars_df_into_dolt_table ["manufacturers", "categories"]
        "components" "/tmp/components.pq" =
      { commands := [], fault := some (unknownTableMsg "components") } :=
  import_unknown_table_raises ["manufacturers", "categories"] "components"
    "/tmp/components.pq" (by decide)

/-- C4: `dolt_truncate_tables` validates every requested name first: when
any name is missing it faults with the set of missing names (no
duplicates, membership exactly the requested-but-absent names) and issues
no `DELETE`; otherwise it issues exactly one `DELETE FROM <table>;`
statement per name, in the caller-supplied order. -/
theorem truncate_validates_then_deletes (catalog names : List String) :
    ((∃ n, n ∈ names ∧ n ∉ catalog) →
      (dolt_truncate_tables catalog (Sum.inl names)).1 = [] ∧
        ∃ missing,
          (dolt_truncate_tables catalog (Sum.inl names)).2 = some missing ∧
            missing.Nodup ∧
            ∀ x, x ∈ missing ↔ x ∈ names ∧ x ∉ catalog) ∧
    ((∀ n, n ∈ names → n ∈ catalog) →
      dolt_truncate_tables catalog (Sum.inl names) =
        (names.map deleteStatement, none)) := by
  constructor
  · rintro ⟨n, hn, hnc⟩
    have hcond : ¬ ∀ x ∈ names, x ∈ catalog := fun h => hnc (h n hn)
    refine ⟨by simp [dolt_truncate_tables, hcond], ?_⟩
    refine ⟨(names.filter (fun n => !catalog.contains n)).dedup,
      by simp [dolt_truncate_tables, hcond], List.nodup_dedup _, ?_⟩
    intro x
    simp [List.mem_dedup, List.mem_filter]
  · intro h
    simp only [dolt_truncate_tables]
    rw [if_pos (by simpa using h)]

/-- C4 witness: a missing name faults with no statement issued, and an
all-present request issues the two statements in caller order. -/
theorem truncate_validates_then_deletes_witness :
    (dolt_truncate_tables ["manufacturers", "categories"]
        (Sum.inl ["components"])).1 = [] ∧
      dolt_truncate_tables ["manufacturers", "categories"]
          (Sum.inl ["categories", "manufacturers"]) =
        (["DELETE FROM categories;", "DELETE FROM manufacturers;"], none) := by
  constructor
  · exact ((truncate_validates_then_deletes ["manufacturers", "categories"]
      ["components"]).1 ⟨"components", by decide, by decide⟩).1
  · have h := (truncate_validates_then_deletes ["manufacturers", "categories"]
      ["categories", "manufacturers"]).2 (by decide)
    simpa [deleteStatement] using h

/-- C10: the public interface also accepts a single table-name string and
behaves exactly as the call with the singleton list of that name. -/
theorem truncate_string_singleton (catalog : List String) (s : String) :
    dolt_truncate_tables catalog (Sum.inr s) =
      dolt_truncate_tables catalog (Sum.inl [s]) := rfl

/-- C6: the status check reports dirty exactly when the trimmed captured
output does not end with the literal `"working tree clean"`. -/
theorem is_dirty_iff_not_clean_suffix (statusStdout : List Nat) :
    dolt_check_status_is_repo_dirty statusStdout = true ↔
      ¬ ∃ front, front ++ asciiBytes "working tree clean" =
        stripBytes statusStdout := by
  unfold dolt_check_status_is_repo_dirty
  rw [Bool.not_eq_true']
  rw [← Bool.not_eq_true]
  constructor
  · intro h hex
    exact h (List.isSuffixOf_iff_suffix.mpr hex)
  · intro h hs
    exact h (List.isSuffixOf_iff_suffix.mp hs)

/-- C7: the publisher configures the author identity first,
unconditionally; on a clean working copy it is a no-op after the
configuration (no add, commit or push); and two successive runs with no
intervening mutation produce at most one commit, because a successful
commit leaves the copy clean. -/
theorem commit_and_push_identity_idempotent (s : RepoState)
    (username email m1 m2 : String) :
    ((dolt_commit_and_push s username email m1).2.take 2 =
        configCommands username email) ∧
      (s.dirty = false →
        dolt_commit_and_push s username email m1 =
          (s, configCommands username email)) ∧
      countCommits (dolt_commit_and_push s username email m1).2 +
          countCommits
            ((dolt_commit_and_push (dolt_commit_and_push s username email m1).1
                username email m2).2) ≤ 1 := by
  obtain ⟨dirty⟩ := s
  cases dirty <;>
    simp [dolt_commit_and_push, configCommands, countCommits, List.countP,
      List.countP.go, List.take]

/-- C7 witness: on a clean working copy the first call is already a no-op
after the identity configuration. -/
theorem commit_and_push_identity_idempotent_witness :
    dolt_commit_and_push ⟨false⟩ "societal-sandpaper"
        "societal-sandpaper+dolthub@proton.me" "update" =
      (⟨false⟩, configCommands "societal-sandpaper"
        "societal-sandpaper+dolthub@proton.me") :=
  (commit_and_push_identity_idempotent ⟨false⟩ "societal-sandpaper"
    "societal-sandpaper+dolthub@proton.me" "update" "update").2.1 rfl

mutual
theorem filesUnderTree_nil_iff (t : FsTree) :
    filesUnderTree t = [] ↔ allDirsTree t = true := by
  cases t with
  | file n => simp [filesUnderTree, allDirsTree]
  | dir n cs =>
    simpa [filesUnderTree, allDirsTree] using filesUnderForest_nil_iff cs
theorem filesUnderForest_nil_iff (cs : FsForest) :
    filesUnderForest cs = [] ↔ allDirsForest cs = true := by
  cases cs with
  | nil => simp [filesUnderForest, allDirsForest]
  | cons e rest =>
    simp [filesUnderForest, allDirsForest, filesUnderTree_nil_iff e,
      filesUnderForest_nil_iff rest]
end

/-- C9: when the transient metadata directory is absent nothing happens;
when it contains only subdirectories (no file anywhere, recursively) it
is removed; when any file is present the step is a fatal error carrying
the nonempty offending file list, and no removal happens. -/
theorem clone_cleanup_cases (cs : FsForest) :
    dolt_clone_cleanup none = CleanupOutcome.skipped ∧
      (allDirsForest cs = true →
        dolt_clone_cleanup (some cs) = CleanupOutcome.removed) ∧
      (allDirsForest cs = false →
        dolt_clone_cleanup (some cs) =
            CleanupOutcome.fatal (filesUnderForest cs) ∧
          filesUnderForest cs ≠ []) := by
  refine ⟨rfl, ?_, ?_⟩
  · intro h
    have hnil : filesUnderForest cs = [] := (filesUnderForest_nil_iff cs).mpr h
    simp [dolt_clone_cleanup, hnil]
  · intro h
    have hne : filesUnderForest cs ≠ [] := by
      intro hnil
      rw [(filesUnderForest_nil_iff cs).mp hnil] at h
      cases h
    refine ⟨?_, hne⟩
    have hpos : 0 < (filesUnderForest cs).length :=
      List.length_pos.mpr hne
    simp [dolt_clone_cleanup, hpos]

/-- C9 witness: a metadata directory holding a single empty subdirectory
is removed; one holding a file is fatal. -/
theorem clone_cleanup_cases_witness :
    dolt_clone_cleanup (some (FsForest.cons (FsTree.dir "noms" FsForest.nil)
        FsForest.nil)) = CleanupOutcome.removed ∧
      dolt_clone_cleanup (some (FsForest.cons (FsTree.file "LOCK")
          FsForest.nil)) = CleanupOutcome.fatal ["LOCK"] := by
  constructor
  · exact (clone_cleanup_cases (FsForest.cons (FsTree.dir "noms" FsForest.nil)
      FsForest.nil)).2.1 rfl
  · exact ((clone_cleanup_cases (FsForest.cons (FsTree.file "LOCK")
      FsForest.nil)).2.2 rfl).1

theorem take_len_append {α : Type} (l1 l2 : List α) :
    (l1 ++ l2).take l1.length = l1 := by
  induction l1 with
  | nil => rfl
  | cons a t ih => simp [ih]

theorem drop_len_add_append {α : Type} (l1 l2 : List α) (d : Nat) :
    (l1 ++ l2).drop (l1.length + d) = l2.drop d := by
  induction l1 with
  | nil => simp
  | cons a t ih =>
    have harg : t.length + 1 + d = t.length + d + 1 := by omega
    simp [harg, ih]

theorem dropThrough_header (front rest : List Char)
    (h : ∀ c ∈ front, (c != '\n') = true) :
    dropThroughFirstNewline (front ++ '\n' :: rest) = rest := by
  induction front with
  | nil => simp [dropThroughFirstNewline]
  | cons a t ih =>
    have ha : (a != '\n') = true := h a (List.mem_cons_self a t)
    have ih2 := ih (fun c hc => h c (List.mem_cons_of_mem a hc))
    simp only [dropThroughFirstNewline, List.cons_append,
      List.dropWhile_cons, ha, if_true] at ih2 ⊢
    exact ih2

theorem footer_no_inner_token_bounded :
    ∀ d < 30, 1 ≤ d →
      processedToken.isPrefixOf (progressFooter.drop d) = false := by decide

theorem footer_no_inner_token (d : Nat) (hd : 1 ≤ d) :
    processedToken.isPrefixOf (progressFooter.drop d) = false := by
  by_cases h30 : d < 30
  · exact footer_no_inner_token_bounded d h30 hd
  · have hlen : progressFooter.length ≤ d := by
      have h29 : progressFooter.length = 29 := by decide
      omega
    rw [List.drop_eq_nil_of_le hlen]
    decide

theorem findLastOccAux_succ (sep xs : List Char) (n : Nat) :
    findLastOccAux sep xs (n + 1) =
      if sep.isPrefixOf (xs.drop n) then some n
      else findLastOccAux sep xs n := rfl

theorem findLastOccAux_exact (sep xs : List Char) (m : Nat)
    (hm : sep.isPrefixOf (xs.drop m) = true) :
    ∀ k, (∀ j, m < j → j < m + k + 1 →
        sep.isPrefixOf (xs.drop j) = false) →
      findLastOccAux sep xs (m + k + 1) = some m := by
  intro k
  induction k with
  | zero =>
    intro _
    rw [findLastOccAux_succ, if_pos hm]
  | succ n ih =>
    intro h
    have hfalse : sep.isPrefixOf (xs.drop (m + n + 1)) = false :=
      h (m + n + 1) (by omega) (by omega)
    have harg : m + (n + 1) + 1 = (m + n + 1) + 1 := by omega
    rw [harg, findLastOccAux_succ, if_neg (by simp [hfalse])]
    exact ih (fun j h1 h2 => h j h1 (by omega))

theorem rsplitBefore_payload (payload : List Char) :
    rsplitBefore processedToken (payload ++ progressFooter) = payload := by
  have hd : (payload ++ progressFooter).drop payload.length =
      progressFooter := by
    have h0 := drop_len_add_append payload progressFooter 0
    simp only [Nat.add_zero, List.drop_zero] at h0
    exact h0
  have hm : processedToken.isPrefixOf
      ((payload ++ progressFooter).drop payload.length) = true := by
    rw [hd]
    decide
  have hno : ∀ j, payload.length < j → j < payload.length + 29 + 1 →
      processedToken.isPrefixOf ((payload ++ progressFooter).drop j) =
        false := by
    intro j h1 h2
    have hj : j = payload.length + (j - payload.length) := by omega
    rw [hj, drop_len_add_append]
    exact footer_no_inner_token (j - payload.length) (by omega)
  have hfind := findLastOccAux_exact processedToken
    (payload ++ progressFooter) payload.length hm 29 hno
  have hlen : (payload ++ progressFooter).length = payload.length + 29 := by
    have h29 : progressFooter.length = 29 := by decide
    simp [h29]
  unfold rsplitBefore
  rw [hlen, hfind]
  exact take_len_append payload progressFooter

/-- C8: for captured bytes of the form header ++ payload ++ footer (the
two exact progress-line literals), the stripping step yields exactly the
payload; bytes carrying neither literal are left unchanged. -/
theorem strip_progress_exact (payload bs : List Char) :
    dolt_sql_strip_progress (progressHeader ++ payload ++ progressFooter) =
        payload ∧
      (progressHeader.isPrefixOf bs = false →
        progressFooter.isSuffixOf bs = false →
        dolt_sql_strip_progress bs = bs) := by
  constructor
  · have hpre : progressHeader.isPrefixOf
        (progressHeader ++ payload ++ progressFooter) = true := by
      rw [List.append_assoc]
      exact List.isPrefixOf_iff_prefix.mpr (List.prefix_append _ _)
    have hheader : progressHeader =
        "Processed 0.0% of the file".toList ++ ['\n'] := by decide
    have hdrop : dropThroughFirstNewline
        (progressHeader ++ payload ++ progressFooter) =
        payload ++ progressFooter := by
      rw [List.append_assoc, hheader, List.append_assoc]
      exact dropThrough_header _ _ (by decide)
    have hsuf : progressFooter.isSuffixOf (payload ++ progressFooter) =
        true :=
      List.isSuffixOf_iff_suffix.mpr (List.suffix_append _ _)
    simp only [dolt_sql_strip_progress]
    rw [if_pos hpre, hdrop, if_pos hsuf]
    exact rsplitBefore_payload payload
  · intro h1 h2
    simp only [dolt_sql_strip_progress]
    have hb1 : (if progressHeader.isPrefixOf bs then
        dropThroughFirstNewline bs else bs) = bs := if_neg (by rw [h1]; simp)
    rw [hb1, if_neg (by rw [h2]; simp)]

/-- C8 witness: a concrete payload is recovered exactly, and bytes with
neither literal pass through unchanged. -/
theorem strip_progress_exact_witness :
    dolt_sql_strip_progress
        (progressHeader ++ "abc".toList ++ progressFooter) = "abc".toList ∧
      dolt_sql_strip_progress "xyz".toList = "xyz".toList :=
  ⟨(strip_progress_exact "abc".toList "xyz".toList).1,
    (strip_progress_exact "abc".toList "xyz".toList).2 (by decide)
      (by decide)⟩

theorem cellCmp_eq_iff (a b : Cell) : cellCmp a b = Ordering.eq ↔ a = b := by
  cases a <;> cases b <;> simp only [cellCmp] <;> simp
  omega

theorem cellCmp_gt_iff (a b : Cell) :
    cellCmp a b = Ordering.gt ↔ cellCmp b a = Ordering.lt := by
  cases a <;> cases b <;> simp only [cellCmp] <;> simp
  omega

theorem cellCmp_lt_trans {a b c : Cell} (h1 : cellCmp a b = Ordering.lt)
    (h2 : cellCmp b c = Ordering.lt) : cellCmp a c = Ordering.lt := by
  cases a <;> cases b <;> cases c <;> simp_all [cellCmp]
  omega

theorem rowCmp_eq_iff : ∀ (a b : Row), rowCmp a b = Ordering.eq ↔ a = b
  | [], [] => by simp [rowCmp]
  | [], _ :: _ => by simp [rowCmp]
  | _ :: _, [] => by simp [rowCmp]
  | a :: as, b :: bs => by
    simp only [rowCmp]
    cases h : cellCmp a b with
    | eq =>
      have hab : a = b := (cellCmp_eq_iff a b).mp h
      simp [hab, rowCmp_eq_iff as bs]
    | lt =>
      have hne : a ≠ b := fun he =>
        absurd (((cellCmp_eq_iff a b).mpr he).symm.trans h) (by decide)
      simp [hne]
    | gt =>
      have hne : a ≠ b := fun he =>
        absurd (((cellCmp_eq_iff a b).mpr he).symm.trans h) (by decide)
      simp [hne]

theorem rowCmp_refl (a : Row) : rowCmp a a = Ordering.eq :=
  (rowCmp_eq_iff a a).mpr rfl

theorem rowCmp_gt_iff : ∀ (a b : Row),
    rowCmp a b = Ordering.gt ↔ rowCmp b a = Ordering.lt
  | [], [] => by simp [rowCmp]
  | [], _ :: _ => by simp [rowCmp]
  | _ :: _, [] => by simp [rowCmp]
  | a :: as, b :: bs => by
    simp only [rowCmp]
    cases h : cellCmp a b with
    | eq =>
      have hba : cellCmp b a = Ordering.eq :=
        (cellCmp_eq_iff b a).mpr ((cellCmp_eq_iff a b).mp h).symm
      rw [hba]
      exact rowCmp_gt_iff as bs
    | lt =>
      have hba : cellCmp b a = Ordering.gt :=
        (cellCmp_gt_iff b a).mpr h
      rw [hba]
      simp
    | gt =>
      have hba : cellCmp b a = Ordering.lt :=
        (cellCmp_gt_iff a b).mp h
      rw [hba]
      simp

theorem rowCmp_lt_trans : ∀ (a b c : Row), rowCmp a b = Ordering.lt →
    rowCmp b c = Ordering.lt → rowCmp a c = Ordering.lt
  | [], [], _, h1, _ => by simp [rowCmp] at h1
  | [], _ :: _, [], _, h2 => by simp [rowCmp] at h2
  | [], _ :: _, _ :: _, _, _ => rfl
  | _ :: _, [], _, h1, _ => by simp [rowCmp] at h1
  | _ :: _, _ :: _, [], _, h2 => by simp [rowCmp] at h2
  | a :: as, b :: bs, c :: cs, h1, h2 => by
    simp only [rowCmp] at h1 h2 ⊢
    cases hab : cellCmp a b with
    | gt => rw [hab] at h1; simp at h1
    | eq =>
      rw [hab] at h1
      have hab2 : a = b := (cellCmp_eq_iff a b).mp hab
      cases hbc : cellCmp b c with
      | gt => rw [hbc] at h2; simp at h2
      | eq =>
        rw [hbc] at h2
        have hbc2 : b = c := (cellCmp_eq_iff b c).mp hbc
        have hac : cellCmp a c = Ordering.eq :=
          (cellCmp_eq_iff a c).mpr (hab2.trans hbc2)
        rw [hac]
        exact rowCmp_lt_trans as bs cs (by simpa using h1) (by simpa using h2)
      | lt =>
        have hac : cellCmp a c = Ordering.lt := by rw [hab2]; exact hbc
        rw [hac]
    | lt =>
      cases hbc : cellCmp b c with
      | gt => rw [hbc] at h2; simp at h2
      | eq =>
        have hbc2 : b = c := (cellCmp_eq_iff b c).mp hbc
        have hac : cellCmp a c = Ordering.lt := by rw [← hbc2]; exact hab
        rw [hac]
      | lt =>
        have hac : cellCmp a c = Ordering.lt := cellCmp_lt_trans hab hbc
        rw [hac]

theorem rowLe_refl (a : Row) : rowLe a a = true := by
  simp [rowLe, rowCmp_refl]

theorem rowLe_trans {a b c : Row} (h1 : rowLe a b = true)
    (h2 : rowLe b c = true) : rowLe a c = true := by
  unfold rowLe at *
  cases hab : rowCmp a b with
  | gt => rw [hab] at h1; simp at h1
  | eq =>
    have : a = b := (rowCmp_eq_iff a b).mp hab
    rw [this]
    exact h2
  | lt =>
    cases hbc : rowCmp b c with
    | gt => rw [hbc] at h2; simp at h2
    | eq =>
      have hb : b = c := (rowCmp_eq_iff b c).mp hbc
      rw [← hb, hab]
    | lt =>
      rw [rowCmp_lt_trans a b c hab hbc]

theorem rowLe_total (a b : Row) : rowLe a b = true ∨ rowLe b a = true := by
  unfold rowLe
  cases hab : rowCmp a b with
  | gt =>
    right
    rw [(rowCmp_gt_iff a b).mp hab]
  | eq => left; rfl
  | lt => left; rfl

theorem uniqueFirstAux_spec :
    ∀ (l : List Row) (seen : List Cell), l.Pairwise RowLe →
      ∀ r ∈ uniqueFirstAux seen l,
        r ∈ l ∧ keyOf r ∉ seen ∧
          ∀ r2 ∈ l, keyOf r2 = keyOf r → rowLe r r2 = true
  | [], _, _, r, hr => by simp [uniqueFirstAux] at hr
  | x :: xs, seen, hp, r, hr => by
    rw [uniqueFirstAux] at hr
    by_cases hx : keyOf x ∈ seen
    · rw [if_pos hx] at hr
      obtain ⟨hmem, hnotseen, hmax⟩ :=
        uniqueFirstAux_spec xs seen hp.of_cons r hr
      refine ⟨List.mem_cons_of_mem x hmem, hnotseen, ?_⟩
      intro r2 hr2 hk
      rcases List.mem_cons.mp hr2 with he | hm
      · exfalso
        rw [he] at hk
        rw [← hk] at hnotseen
        exact hnotseen hx
      · exact hmax r2 hm hk
    · rw [if_neg hx] at hr
      rcases List.mem_cons.mp hr with he | hm
      · subst he
        refine ⟨List.mem_cons_self _ _, hx, ?_⟩
        intro r2 hr2 _
        rcases List.mem_cons.mp hr2 with he2 | hm2
        · rw [he2]
          exact rowLe_refl r
        · exact List.rel_of_pairwise_cons hp hm2
      · obtain ⟨hmem, hnotseen, hmax⟩ :=
          uniqueFirstAux_spec xs (keyOf x :: seen) hp.of_cons r hm
        have hnotseen2 : keyOf r ∉ seen := fun hs =>
          hnotseen (List.mem_cons_of_mem _ hs)
        have hkx : keyOf r ≠ keyOf x := fun he =>
          hnotseen (he ▸ List.mem_cons_self _ _)
        refine ⟨List.mem_cons_of_mem x hmem, hnotseen2, ?_⟩
        intro r2 hr2 hk
        rcases List.mem_cons.mp hr2 with he2 | hm2
        · exfalso
          rw [he2] at hk
          exact hkx hk.symm
        · exact hmax r2 hm2 hk

theorem uniqueFirstAux_keys_nodup :
    ∀ (l : List Row) (seen : List Cell),
      ((uniqueFirstAux seen l).map keyOf).Nodup ∧
        ∀ k ∈ (uniqueFirstAux seen l).map keyOf, k ∉ seen
  | [], seen => by simp [uniqueFirstAux]
  | x :: xs, seen => by
    by_cases hx : keyOf x ∈ seen
    · rw [uniqueFirstAux, if_pos hx]
      exact uniqueFirstAux_keys_nodup xs seen
    · rw [uniqueFirstAux, if_neg hx]
      obtain ⟨ih1, ih2⟩ := uniqueFirstAux_keys_nodup xs (keyOf x :: seen)
      constructor
      · simp only [List.map_cons, List.nodup_cons]
        exact ⟨fun hmem => ih2 _ hmem (List.mem_cons_self _ _), ih1⟩
      · intro k hk
        simp only [List.map_cons, List.mem_cons] at hk
        rcases hk with he | hm
        · rw [he]; exact hx
        · exact fun hs => ih2 k hm (List.mem_cons_of_mem _ hs)

theorem uniqueFirstAux_keys_cover :
    ∀ (l : List Row) (seen : List Cell) (k : Cell),
      k ∈ l.map keyOf → k ∉ seen → k ∈ (uniqueFirstAux seen l).map keyOf
  | [], _, _, hk, _ => by simp at hk
  | x :: xs, seen, k, hk, hks => by
    have hk2 : k = keyOf x ∨ k ∈ xs.map keyOf := by
      simpa using hk
    by_cases hx : keyOf x ∈ seen
    · rw [uniqueFirstAux, if_pos hx]
      rcases hk2 with he | hm
      · exact absurd (he ▸ hx) hks
      · exact uniqueFirstAux_keys_cover xs seen k hm hks
    · rw [uniqueFirstAux, if_neg hx]
      simp only [List.map_cons, List.mem_cons]
      rcases hk2 with he | hm
      · exact Or.inl he
      · by_cases hkx : k = keyOf x
        · exact Or.inl hkx
        · refine Or.inr (uniqueFirstAux_keys_cover xs (keyOf x :: seen) k hm ?_)
          simp [hkx, hks]

/-- C2 (amended): the dedup produces exactly one row per distinct key —
the output keys are pairwise distinct and are exactly the input keys —
and each output row is one of the input rows carrying its key and is
maximal among them under the all-columns descending (nulls last)
lexicographic row order.  Its non-key values therefore come from that
single maximal row, not from per-column maxima. -/
theorem dedup_one_row_per_key_lex_max (rows : List Row) :
    ((dedup_rows rows).map keyOf).Nodup ∧
      (∀ k, k ∈ (dedup_rows rows).map keyOf ↔ k ∈ rows.map keyOf) ∧
      ∀ r ∈ dedup_rows rows,
        r ∈ rows ∧ ∀ r2 ∈ rows, keyOf r2 = keyOf r → rowLe r r2 = true := by
  haveI : IsTotal Row RowLe := ⟨fun a b => rowLe_total a b⟩
  haveI : IsTrans Row RowLe := ⟨fun _ _ _ h1 h2 => rowLe_trans h1 h2⟩
  have hperm : List.Perm (List.insertionSort RowLe rows) rows :=
    List.perm_insertionSort RowLe rows
  have hsorted : (List.insertionSort RowLe rows).Pairwise RowLe :=
    List.sorted_insertionSort RowLe rows
  refine ⟨(uniqueFirstAux_keys_nodup _ []).1, ?_, ?_⟩
  · intro k
    constructor
    · intro hk
      obtain ⟨r, hr, hkr⟩ := List.mem_map.mp hk
      obtain ⟨hmem, -, -⟩ := uniqueFirstAux_spec _ [] hsorted r hr
      exact hkr ▸ List.mem_map_of_mem keyOf (hperm.mem_iff.mp hmem)
    · intro hk
      have hk2 : k ∈ (List.insertionSort RowLe rows).map keyOf := by
        obtain ⟨r, hr, hkr⟩ := List.mem_map.mp hk
        exact hkr ▸ List.mem_map_of_mem keyOf (hperm.mem_iff.mpr hr)
      exact uniqueFirstAux_keys_cover _ [] k hk2 (List.not_mem_nil k)
  · intro r hr
    obtain ⟨hmem, -, hmax⟩ := uniqueFirstAux_spec _ [] hsorted r hr
    refine ⟨hperm.mem_iff.mp hmem, ?_⟩
    intro r2 hr2 hk
    exact hmax r2 (hperm.mem_iff.mpr hr2) hk

/-- C2 amended witness: at the concrete duplicate-key input the kept row
sorts no later than the other row with the same key. -/
theorem dedup_one_row_per_key_lex_max_witness :
    rowLe [some 1, some 5, some 1] [some 1, some 3, some 9] = true := by
  have h := (dedup_one_row_per_key_lex_max cexRows).2.2
    [some 1, some 5, some 1] (by decide)
  exact h.2 [some 1, some 3, some 9] (by decide) (by decide)

/-- C2 counterexample: at `cexRows` the claim as stated fails — the kept
row for key `some 1` has `some 1` in the third column, not the
per-column maximum `some 9` among the two duplicate rows. -/
theorem dedup_per_column_max_fails : ¬ dedupPerColumnMaxClaim cexRows := by
  decide

theorem insertionSort_replicate (n : Nat) (r : Row) :
    List.insertionSort RowLe (List.replicate n r) = List.replicate n r := by
  have hperm : List.Perm (List.insertionSort RowLe (List.replicate n r))
      (List.replicate n r) :=
    List.perm_insertionSort RowLe (List.replicate n r)
  have hmem : ∀ b ∈ List.insertionSort RowLe (List.replicate n r), b = r :=
    fun b hb => List.eq_of_mem_replicate (hperm.mem_iff.mp hb)
  have hlen : (List.insertionSort RowLe (List.replicate n r)).length = n := by
    rw [hperm.length_eq, List.length_replicate]
  calc List.insertionSort RowLe (List.replicate n r)
      = List.replicate
          (List.insertionSort RowLe (List.replicate n r)).length r :=
        List.eq_replicate_length.mpr hmem
    _ = List.replicate n r := by rw [hlen]

theorem uniqueFirstAux_replicate_seen (r : Row) (seen : List Cell)
    (h : keyOf r ∈ seen) :
    ∀ n, uniqueFirstAux seen (List.replicate n r) = []
  | 0 => by simp [uniqueFirstAux]
  | n + 1 => by
    rw [List.replicate_succ, uniqueFirstAux, if_pos h]
    exact uniqueFirstAux_replicate_seen r seen h n

theorem dedup_rows_replicate (n : Nat) (r : Row) :
    dedup_rows (List.replicate (n + 1) r) = [r] := by
  unfold dedup_rows
  rw [insertionSort_replicate, List.replicate_succ, uniqueFirstAux,
    if_neg (List.not_mem_nil _),
    uniqueFirstAux_replicate_seen r [keyOf r] (List.mem_cons_self _ _) n]

/-- C5: the dedup segment raises the data-quality fault exactly when the
removed-row count strictly exceeds 100; removing exactly 100 rows (101
identical single-key rows) succeeds, and removing 101 rows (102 such
rows) raises. -/
theorem dedup_threshold_boundary (rows : List Row) :
    ((load_basic_csv_dedup rows).isFault = true ↔
        rows.length - (dedup_rows rows).length > 100) ∧
      load_basic_csv_dedup (List.replicate 101 [some 1]) =
        LoadResult.ok [[some 1]] ∧
      (load_basic_csv_dedup (List.replicate 102 [some 1])).isFault =
        true := by
  refine ⟨?_, ?_, ?_⟩
  · simp only [load_basic_csv_dedup]
    split_ifs with h
    · simpa [LoadResult.isFault] using h
    · simpa [LoadResult.isFault] using h
  · have hd : dedup_rows (List.replicate 101 [some 1]) = [[some 1]] :=
      dedup_rows_replicate 100 [some 1]
    simp only [load_basic_csv_dedup, hd]
    norm_num
  · have hd : dedup_rows (List.replicate 102 [some 1]) = [[some 1]] :=
      dedup_rows_replicate 101 [some 1]
    simp only [load_basic_csv_dedup, hd]
    norm_num [LoadResult.isFault]
